import Mathlib

/-!
Verification of the sliding-window rate limiter in `src/rate_limiter_ip.py`.

The per-key core of the code (lines 30-45) is embedded as pure Lean
functions: timestamps are rationals (the Python code uses `time.time()`
readings), `max_calls` is an `Int` (the Python parameter is an `int` and the
code performs no range validation), and the mutable per-key timestamp list
becomes explicit state passing.  The read `timestamps[0]` on an empty list
raises `IndexError` in Python; the embedding models that outcome as `none`.
-/

namespace RateLimiter

/-- Outcome of one rate-limit decision: either the request proceeds
(`allow`, the code calls the wrapped endpoint) or it is rejected with the
advertised wait time (the code raises HTTP 429). -/
inductive Decision where
  | allow : Decision
  | reject : Rat → Decision
deriving DecidableEq

/-- Line 34 of the source: `timestamps[:] = [t for t in timestamps if now - t < period]`. -/
def pruneW (period now : Rat) (w : List Rat) : List Rat :=
  w.filter (fun t => decide (now - t < period))

/-- The reject branch, lines 40-45: `wait = period - (now - timestamps[0])`
followed by raising HTTP 429.  On an empty list the subscript `timestamps[0]`
raises `IndexError`, modelled as `none`; the list itself is unchanged. -/
def rejectOutcome (period now : Rat) : List Rat → Option Decision × List Rat
  | [] => (none, [])
  | t0 :: rest => (some (Decision.reject (period - (now - t0))), t0 :: rest)

/-- One `check` call on a single key's window, lines 34-45 of the source:
prune, then admit (appending `now`) when the pruned length is below
`max_calls`, otherwise reject.  Returns the decision (`none` = `IndexError`)
and the window as left in the `usage` mapping after the call. -/
def checkKey (max_calls : Int) (period : Rat) (w : List Rat) (now : Rat) :
    Option Decision × List Rat :=
  if ((pruneW period now w).length : Int) < max_calls then
    (some Decision.allow, pruneW period now w ++ [now])
  else
    rejectOutcome period now (pruneW period now w)

/-- Run a sequence of `check` calls on one key, threading the window;
returns the list of per-call decisions and the final window. -/
def runCheck (max_calls : Int) (period : Rat) : List Rat → List Rat → List (Option Decision) × List Rat
  | w, [] => ([], w)
  | w, n :: rest =>
    ((checkKey max_calls period w n).1 :: (runCheck max_calls period (checkKey max_calls period w n).2 rest).1,
      (runCheck max_calls period (checkKey max_calls period w n).2 rest).2)

/-- The timestamps of the admitted calls of a run, in call order. -/
def admittedTimes (max_calls : Int) (period : Rat) : List Rat → List Rat → List Rat
  | _, [] => []
  | w, n :: rest =>
    (if (checkKey max_calls period w n).1 = some Decision.allow then [n] else []) ++
      admittedTimes max_calls period (checkKey max_calls period w n).2 rest

/-- The per-process `usage` dict of line 14, as an association list from the
hashed client id to its timestamp window. -/
abbrev Usage := List (String × List Rat)

/-- Dictionary read: the window stored for `k`, or the freshly created empty
window of lines 31-32 when `k` is absent. -/
def getWindow : Usage → String → List Rat
  | [], _ => []
  | (k', w) :: rest, k => if k' = k then w else getWindow rest k

/-- Dictionary write: store window `w` under key `k`, keeping every other
binding (Python's in-place `usage[unique_id]` update). -/
def setWindow : Usage → String → List Rat → Usage
  | [], k, w => [(k, w)]
  | (k', w') :: rest, k, w =>
    if k' = k then (k, w) :: rest else (k', w') :: setWindow rest k w

/-- A `check` call at the `usage`-mapping level, lines 30-45: look up or
lazily create the key's window, run the per-key check, store the resulting
window back (the Python list is mutated in place, so the pruned list is
stored even when the reject branch later raises). -/
def checkUsage (max_calls : Int) (period : Rat) (usage : Usage) (k : String) (now : Rat) :
    Option Decision × Usage :=
  ((checkKey max_calls period (getWindow usage k) now).1,
    setWindow usage k (checkKey max_calls period (getWindow usage k) now).2)

/-- The incoming request as the wrapper sees it: `request.client` is `none`
when the connection carries no client information, otherwise it supplies the
host string (line 24 reads `request.client.host`). -/
structure Request where
  client : Option String
deriving DecidableEq

/-- What one `wrapper` invocation produces: the wrapped endpoint's result
(`success`), HTTP 400 for a request with no client information, HTTP 429
carrying the computed wait, or the unhandled `IndexError`. -/
inductive WrapperResult where
  | success : WrapperResult
  | badRequest : WrapperResult
  | rateLimited : Rat → WrapperResult
  | indexError : WrapperResult
deriving DecidableEq

/-- The `wrapper` of lines 17-45, abstracting the SHA-256 key derivation of
line 27 as an arbitrary function `hash` on host strings.  Returns the
request outcome and the `usage` mapping after the call. -/
def wrapper (hash : String → String) (max_calls : Int) (period : Rat)
    (usage : Usage) (req : Request) (now : Rat) : WrapperResult × Usage :=
  match req.client with
  | none => (WrapperResult.badRequest, usage)
  | some host =>
    match checkUsage max_calls period usage (hash host) now with
    | (some Decision.allow, usage') => (WrapperResult.success, usage')
    | (some (Decision.reject q), usage') => (WrapperResult.rateLimited q, usage')
    | (none, usage') => (WrapperResult.indexError, usage')

/-- The state set up by `rate_limit(max_calls, period)` and the decorator
application, lines 12-14: the captured configuration together with the fresh
empty `usage` dict.  The source performs no validation of either parameter. -/
structure LimiterInstance where
  max_calls : Int
  period : Rat
  usage : Usage
deriving DecidableEq

/-- Lines 12-14 of the source: `rate_limit` builds the decorator closure;
applying it captures `usage = {}`.  No check on `max_calls` or `period`. -/
def rate_limit (max_calls : Int) (period : Rat) : LimiterInstance :=
  ⟨max_calls, period, []⟩

/-- A sample host string used in concrete evaluations. -/
def hostA : String := "203.0.113.7"

/-- A sample client key used in concrete evaluations. -/
def keyA : String := "a"

/-- A second, distinct sample client key. -/
def keyB : String := "b"

end RateLimiter

namespace RateLimiter

theorem rejectOutcome_snd (period now : Rat) (l : List Rat) :
    (rejectOutcome period now l).2 = l := by
  cases l <;> rfl

theorem rejectOutcome_fst_ne_allow (period now : Rat) (l : List Rat) :
    (rejectOutcome period now l).1 ≠ some Decision.allow := by
  cases l <;> simp [rejectOutcome]

theorem checkKey_of_lt (N : Int) (P : Rat) (w : List Rat) (now : Rat)
    (h : ((pruneW P now w).length : Int) < N) :
    checkKey N P w now = (some Decision.allow, pruneW P now w ++ [now]) := by
  simp [checkKey, h]

theorem checkKey_of_not_lt (N : Int) (P : Rat) (w : List Rat) (now : Rat)
    (h : ¬ ((pruneW P now w).length : Int) < N) :
    checkKey N P w now = rejectOutcome P now (pruneW P now w) := by
  simp [checkKey, h]

theorem checkKey_reject_window (N : Int) (P : Rat) (w : List Rat) (now q : Rat)
    (w' : List Rat) (h : checkKey N P w now = (some (Decision.reject q), w')) :
    w' = pruneW P now w := by
  by_cases hg : ((pruneW P now w).length : Int) < N
  · rw [checkKey_of_lt N P w now hg] at h
    simp at h
  · rw [checkKey_of_not_lt N P w now hg] at h
    have h2 := congrArg Prod.snd h
    rw [rejectOutcome_snd] at h2
    exact h2.symm

end RateLimiter

namespace RateLimiter

/-- Claim C9: with `max_calls = 2`, `period = 10` and a fresh key, the calls
at times 0, 1, 2, 11 produce Admit, Admit, Reject with wait `10 - (2 - 0) = 8`,
and Admit again (the entries at 0 and 1 have both aged out by time 11); the
final window holds just the timestamp 11. -/
theorem C9_concrete_scenario :
    (runCheck 2 10 [] [0, 1, 2, 11]).1 =
      [some Decision.allow, some Decision.allow,
        some (Decision.reject 8), some Decision.allow] ∧
    (runCheck 2 10 [] [0, 1, 2, 11]).2 = [11] := by
  norm_num [runCheck, checkKey, pruneW, rejectOutcome]

/-- Claim C4: whenever a `check` call returns Reject, the window stored for
the key afterwards is exactly the pruned window (only timestamps with
`now - t < period` retained); no timestamp is appended, so rejected requests
do not count against the limit. -/
theorem C4_reject_leaves_window_pruned (N : Int) (P : Rat) (w : List Rat)
    (now q : Rat) (w' : List Rat)
    (h : checkKey N P w now = (some (Decision.reject q), w')) :
    w' = pruneW P now w :=
  checkKey_reject_window N P w now q w' h

theorem C4_witness :
    checkKey 1 10 [(0 : Rat)] 5 = (some (Decision.reject 5), [0]) ∧
      [(0 : Rat)] = pruneW 10 5 [0] :=
  ⟨by norm_num [checkKey, pruneW, rejectOutcome],
    C4_reject_leaves_window_pruned 1 10 [0] 5 5 [0]
      (by norm_num [checkKey, pruneW, rejectOutcome])⟩

/-- Claim C8: pruning is idempotent at the decision level.  On an
already-pruned window, if the first `check` at `now` rejects (no side
effects), a second `check` at the same `now` returns the very same decision
and window; if the first admits, then once its side effect — the appended
timestamp — is accounted for (removed), the second `check` at the same `now`
again admits with the same resulting window. -/
theorem C8_prune_idempotent_decision (N : Int) (P : Rat) (w : List Rat)
    (now : Rat) (hw : pruneW P now w = w) :
    (∀ q w₁, checkKey N P w now = (some (Decision.reject q), w₁) →
        checkKey N P w₁ now = (some (Decision.reject q), w₁)) ∧
    (∀ w₁, checkKey N P w now = (some Decision.allow, w₁) →
        checkKey N P w₁.dropLast now = (some Decision.allow, w₁)) := by
  constructor
  · intro q w₁ h
    have hw₁ : w₁ = pruneW P now w := checkKey_reject_window N P w now q w₁ h
    rw [hw] at hw₁
    subst hw₁
    exact h
  · intro w₁ h
    by_cases hg : ((pruneW P now w).length : Int) < N
    · rw [checkKey_of_lt N P w now hg] at h
      have h2 := congrArg Prod.snd h
      simp only [] at h2
      rw [hw] at h2
      rw [← h2, List.dropLast_concat]
      rw [checkKey_of_lt N P w now hg, hw]
    · rw [checkKey_of_not_lt N P w now hg] at h
      exact absurd (congrArg Prod.fst h) (rejectOutcome_fst_ne_allow P now _)

theorem C8_witness :
    pruneW 10 5 [(0 : Rat)] = [0] ∧
      checkKey 1 10 [(0 : Rat)] 5 = (some (Decision.reject 5), [0]) :=
  ⟨by norm_num [pruneW],
    (C8_prune_idempotent_decision 1 10 [0] 5 (by norm_num [pruneW])).1 5 [0]
      (by norm_num [checkKey, pruneW, rejectOutcome])⟩

/-- Claim C6, counterexample: construction performs no validation, so
`rate_limit(0, 10)` is an actually-accepted configuration; under it the very
first `check` on a fresh key reaches the reject branch with an empty pruned
window and the `timestamps[0]` read fails (`IndexError`, modelled `none`),
so `check` does not produce a Decision. -/
theorem C6_counterexample :
    (checkKey (rate_limit 0 10).max_calls (rate_limit 0 10).period [] 0).1 = none := by
  norm_num [rate_limit, checkKey, pruneW, rejectOutcome]

/-- Claim C6 (amended): for every configuration with `max_calls ≥ 1` — in
particular every configuration the spec's construction contract allows —
`check` always produces a Decision: the reject branch only runs on a
nonempty pruned window, so the `timestamps[0]` read never fails. -/
theorem C6_check_total_of_pos (N : Int) (P : Rat) (w : List Rat) (now : Rat)
    (hN : 1 ≤ N) : (checkKey N P w now).1 ≠ none := by
  by_cases hg : ((pruneW P now w).length : Int) < N
  · rw [checkKey_of_lt N P w now hg]
    simp
  · rw [checkKey_of_not_lt N P w now hg]
    have hlen : 1 ≤ ((pruneW P now w).length : Int) := le_trans hN (not_lt.mp hg)
    cases hpw : pruneW P now w with
    | nil => rw [hpw] at hlen; simp at hlen
    | cons t0 tl => simp [rejectOutcome]

theorem C6_witness : (1 : Int) ≤ 1 ∧ (checkKey 1 10 [] 0).1 ≠ none :=
  ⟨le_refl 1, C6_check_total_of_pos 1 10 [] 0 (le_refl 1)⟩

/-- Claim C2: the source's `rate_limit` performs no validation whatsoever —
`rate_limit(max_calls=0, period=10)` succeeds and yields a wrapper (no
`ConfigError` exists in the code), and the wrapper it produces fails with an
`IndexError` on the first request: the code contradicts the spec's
construction contract. -/
theorem C2_no_config_validation :
    rate_limit 0 10 = ⟨0, 10, []⟩ ∧
      (wrapper (fun s => s) 0 10 [] ⟨some hostA⟩ 0).1 = WrapperResult.indexError := by
  refine ⟨rfl, ?_⟩
  norm_num [wrapper, checkUsage, checkKey, pruneW, rejectOutcome, getWindow, setWindow]

/-- Claim C10: a request with no client information makes the wrapper raise
the 400 error before any limiter state is touched — the `usage` mapping is
returned entirely unchanged: no key created, no window pruned, no timestamp
appended. -/
theorem C10_missing_client_error_atomic (hash : String → String) (N : Int)
    (P : Rat) (usage : Usage) (now : Rat) :
    wrapper hash N P usage ⟨none⟩ now = (WrapperResult.badRequest, usage) := rfl

theorem getWindow_setWindow_ne (u : Usage) (k1 k2 : String) (w : List Rat)
    (hk : k1 ≠ k2) : getWindow (setWindow u k1 w) k2 = getWindow u k2 := by
  induction u with
  | nil => simp [setWindow, getWindow, hk]
  | cons p rest ih =>
    obtain ⟨k', w'⟩ := p
    by_cases h : k' = k1
    · subst h
      simp [setWindow, getWindow, hk]
    · by_cases h2 : k' = k2
      · subst h2
        simp [setWindow, getWindow, h]
      · simp [setWindow, getWindow, h, h2, ih]

/-- Claim C7: distinct keys are independent — a `check` on `k1` leaves `k2`'s
window unchanged and does not change the decision a subsequent `check` on
`k2` would produce. -/
theorem C7_distinct_keys_independent (N : Int) (P : Rat) (u : Usage)
    (k1 k2 : String) (now now' : Rat) (hk : k1 ≠ k2) :
    getWindow (checkUsage N P u k1 now).2 k2 = getWindow u k2 ∧
      (checkUsage N P (checkUsage N P u k1 now).2 k2 now').1 =
        (checkUsage N P u k2 now').1 := by
  have h2 : getWindow (setWindow u k1 (checkKey N P (getWindow u k1) now).2) k2 =
      getWindow u k2 := getWindow_setWindow_ne u k1 k2 _ hk
  exact ⟨by simp only [checkUsage]; exact h2, by simp only [checkUsage]; rw [h2]⟩

theorem C7_witness :
    keyA ≠ keyB ∧
      (getWindow (checkUsage 1 10 [] keyA 0).2 keyB = getWindow [] keyB ∧
        (checkUsage 1 10 (checkUsage 1 10 [] keyA 0).2 keyB 0).1 =
          (checkUsage 1 10 [] keyB 0).1) :=
  ⟨by decide, C7_distinct_keys_independent 1 10 [] keyA keyB 0 0 (by decide)⟩

theorem pruneW_length_le (P now : Rat) (w : List Rat) :
    (pruneW P now w).length ≤ w.length :=
  List.length_filter_le _ _

theorem length_checkKey_le (N : Int) (P : Rat) (w : List Rat) (now : Rat)
    (hw : (w.length : Int) ≤ N) :
    (((checkKey N P w now).2).length : Int) ≤ N := by
  by_cases hg : ((pruneW P now w).length : Int) < N
  · rw [checkKey_of_lt N P w now hg]
    simp only [List.length_append, List.length_cons, List.length_nil]
    omega
  · rw [checkKey_of_not_lt N P w now hg, rejectOutcome_snd]
    have hf := pruneW_length_le P now w
    omega

theorem runCheck_length_le (N : Int) (P : Rat) (nows : List Rat) :
    ∀ w : List Rat, (w.length : Int) ≤ N →
      (((runCheck N P w nows).2).length : Int) ≤ N := by
  induction nows with
  | nil => intro w hw; simpa [runCheck] using hw
  | cons n rest ih =>
    intro w hw
    simp only [runCheck]
    exact ih _ (length_checkKey_le N P w n hw)

/-- Claim C5: starting from a fresh key, after any sequence of `check` calls
the key's window holds at most `max_calls` timestamps, and (second conjunct)
pruning that window at any instant also yields at most `max_calls`
timestamps — the window never exceeds the limit at the moment a decision is
made. -/
theorem C5_window_never_exceeds_limit (N : Int) (P : Rat) (nows : List Rat)
    (now : Rat) (hN : 0 ≤ N) :
    (((runCheck N P [] nows).2).length : Int) ≤ N ∧
      ((pruneW P now (runCheck N P [] nows).2).length : Int) ≤ N := by
  have h1 := runCheck_length_le N P nows [] (by simpa using hN)
  have h2 := pruneW_length_le P now (runCheck N P [] nows).2
  exact ⟨h1, by omega⟩

theorem C5_witness :
    (0 : Int) ≤ 2 ∧
      ((((runCheck 2 10 [] [0, 1, 2]).2).length : Int) ≤ 2 ∧
        ((pruneW 10 3 (runCheck 2 10 [] [0, 1, 2]).2).length : Int) ≤ 2) :=
  ⟨by norm_num, C5_window_never_exceeds_limit 2 10 [0, 1, 2] 3 (by norm_num)⟩

theorem reject_wait_bounds_aux (N : Int) (P : Rat) (nows : List Rat) :
    ∀ w : List Rat, List.Sorted (· ≤ ·) nows →
      (∀ t ∈ w, ∀ n ∈ nows, t ≤ n) →
      ∀ q : Rat, some (Decision.reject q) ∈ (runCheck N P w nows).1 →
        0 < q ∧ q ≤ P := by
  induction nows with
  | nil => intro w _ _ q hq; simp [runCheck] at hq
  | cons n rest ih =>
    intro w hsort hle q hq
    rw [List.sorted_cons] at hsort
    obtain ⟨hn_rest, hsort'⟩ := hsort
    simp only [runCheck, List.mem_cons] at hq
    cases hq with
    | inl hq =>
      replace hq := hq.symm
      by_cases hg : ((pruneW P n w).length : Int) < N
      · rw [checkKey_of_lt N P w n hg] at hq
        simp at hq
      · rw [checkKey_of_not_lt N P w n hg] at hq
        cases hpw : pruneW P n w with
        | nil => rw [hpw] at hq; simp [rejectOutcome] at hq
        | cons t0 tl =>
          rw [hpw] at hq
          simp only [rejectOutcome, Option.some.injEq, Decision.reject.injEq] at hq
          have ht0 : t0 ∈ pruneW P n w := by
            rw [hpw]; exact List.mem_cons_self _ _
          have ht0f := List.mem_filter.mp ht0
          have ht0P : n - t0 < P := by simpa using ht0f.2
          have ht0n : t0 ≤ n := hle t0 ht0f.1 n (List.mem_cons_self n rest)
          constructor
          · rw [← hq]; linarith
          · rw [← hq]; linarith
    | inr hq =>
      refine ih _ hsort' ?_ q hq
      intro t ht m hm
      by_cases hg : ((pruneW P n w).length : Int) < N
      · rw [checkKey_of_lt N P w n hg] at ht
        rw [List.mem_append] at ht
        cases ht with
        | inl h1 =>
          exact hle t (List.mem_filter.mp h1).1 m (List.mem_cons_of_mem n hm)
        | inr h1 =>
          have : t = n := by simpa using h1
          subst this
          exact hn_rest m hm
      · rw [checkKey_of_not_lt N P w n hg, rejectOutcome_snd] at ht
        exact hle t (List.mem_filter.mp ht).1 m (List.mem_cons_of_mem n hm)

theorem pruneW_append (P now : Rat) (l1 l2 : List Rat) :
    pruneW P now (l1 ++ l2) = pruneW P now l1 ++ pruneW P now l2 :=
  List.filter_append _ _

theorem pruneW_pruneW (P m n : Rat) (A : List Rat) (hmn : m ≤ n) :
    pruneW P n (pruneW P m A) = pruneW P n A := by
  simp only [pruneW, List.filter_filter]
  apply List.filter_congr
  intro t _
  by_cases h : n - t < P
  · have h2 : m - t < P := by linarith
    simp [h, h2]
  · simp [h]

theorem pruneW_single_self (P n : Rat) (hP : 0 < P) : pruneW P n [n] = [n] := by
  simp [pruneW, sub_self, hP]

/-- Core counting invariant behind the sliding-window guarantee: in a run
with non-decreasing `now` values whose window matches the pruned admission
history `A`, each admitted time `s` sees strictly fewer than `max_calls`
earlier admissions within `period` of it (those are exactly the timestamps
the pruned window holds when `s` is admitted). -/
theorem admitted_history_bound (N : Int) (P : Rat) (hP : 0 < P) :
    ∀ (nows : List Rat) (m : Rat) (A w : List Rat),
      List.Sorted (· ≤ ·) (m :: nows) →
      w = pruneW P m A →
      ∀ u s v, admittedTimes N P w nows = u ++ s :: v →
        ((pruneW P s (A ++ u)).length : Int) < N := by
  intro nows
  induction nows with
  | nil =>
    intro m A w _ _ u s v h
    simp only [admittedTimes] at h
    cases u <;> simp at h
  | cons n rest ih =>
    intro m A w hsort hw u s v hsplit
    rw [List.sorted_cons] at hsort
    obtain ⟨hm_all, hsort'⟩ := hsort
    have hmn : m ≤ n := hm_all n (List.mem_cons_self _ _)
    have hpw : pruneW P n w = pruneW P n A := by
      rw [hw]; exact pruneW_pruneW P m n A hmn
    by_cases hg : ((pruneW P n w).length : Int) < N
    · simp only [admittedTimes] at hsplit
      rw [checkKey_of_lt N P w n hg] at hsplit
      simp only [List.cons_append, List.nil_append, if_pos rfl] at hsplit
      cases u with
      | nil =>
        rw [List.nil_append] at hsplit
        have hs : n = s := (List.cons.inj hsplit).1
        subst hs
        rw [List.append_nil, ← hpw]
        exact hg
      | cons u0 u' =>
        rw [List.cons_append] at hsplit
        obtain ⟨hu0, htail⟩ := List.cons.inj hsplit
        subst hu0
        have harg : pruneW P n w ++ [n] = pruneW P n (A ++ [n]) := by
          rw [pruneW_append, pruneW_single_self P n hP, hpw]
        have hsort2 : List.Sorted (· ≤ ·) (n :: rest) := hsort'
        have hres := ih n (A ++ [n]) (pruneW P n w ++ [n]) hsort2 harg u' s v htail
        rw [List.append_assoc] at hres
        simpa using hres
    · simp only [admittedTimes] at hsplit
      rw [checkKey_of_not_lt N P w n hg] at hsplit
      rw [if_neg (rejectOutcome_fst_ne_allow P n _), rejectOutcome_snd,
        List.nil_append] at hsplit
      exact ih n A (pruneW P n w) hsort' hpw u s v hsplit

theorem filter_split_at (p : Rat → Bool) :
    ∀ (l : List Rat) (k : Nat), k < (l.filter p).length →
      ∃ u s v, l = u ++ s :: v ∧ p s = true ∧ (u.filter p).length = k := by
  intro l
  induction l with
  | nil => intro k hk; simp at hk
  | cons x l ih =>
    intro k hk
    cases hx : p x with
    | false =>
      rw [List.filter_cons_of_neg (by simp [hx])] at hk
      obtain ⟨u, s, v, h1, h2, h3⟩ := ih k hk
      exact ⟨x :: u, s, v, by rw [h1, List.cons_append],
        h2, by rw [List.filter_cons_of_neg (by simp [hx])]; exact h3⟩
    | true =>
      rw [List.filter_cons_of_pos hx] at hk
      cases k with
      | zero => exact ⟨[], x, l, rfl, hx, rfl⟩
      | succ k' =>
        have hk' : k' < (l.filter p).length := by
          simpa [Nat.succ_lt_succ_iff] using hk
        obtain ⟨u, s, v, h1, h2, h3⟩ := ih k' hk'
        refine ⟨x :: u, s, v, by rw [h1, List.cons_append], h2, ?_⟩
        rw [List.filter_cons_of_pos hx, List.length_cons, h3]

theorem length_filter_le_filter (p q : Rat → Bool)
    (h : ∀ t, p t = true → q t = true) :
    ∀ l : List Rat, (l.filter p).length ≤ (l.filter q).length := by
  intro l
  induction l with
  | nil => simp
  | cons x l ih =>
    cases hx : p x with
    | true =>
      rw [List.filter_cons_of_pos hx, List.filter_cons_of_pos (h x hx)]
      simpa using ih
    | false =>
      rw [List.filter_cons_of_neg (by simp [hx])]
      cases hq : q x with
      | true =>
        rw [List.filter_cons_of_pos hq]
        exact le_trans ih (by simp)
      | false =>
        rw [List.filter_cons_of_neg (by simp [hq])]
        exact ih

/-- The sliding-window count bound: starting from a fresh key, for any
interval `[a, a + P)` at most `max_calls` of the admitted calls have their
timestamp inside it. -/
theorem admitted_count_le (N : Int) (P : Rat) (nows : List Rat) (a : Rat)
    (hsort : List.Sorted (· ≤ ·) nows) (hN : 0 ≤ N) (hP : 0 < P) :
    (((admittedTimes N P [] nows).filter
      (fun t => decide (a ≤ t ∧ t < a + P))).length : Int) ≤ N := by
  by_contra hcon
  push_neg at hcon
  have hk : N.toNat < ((admittedTimes N P [] nows).filter
      (fun t => decide (a ≤ t ∧ t < a + P))).length := by omega
  cases nows with
  | nil => simp [admittedTimes] at hk
  | cons n rest =>
    obtain ⟨u, s, v, hsplitL, hps, hlen⟩ := filter_split_at _ _ N.toNat hk
    have hsort2 : List.Sorted (· ≤ ·) (n :: n :: rest) := by
      rw [List.sorted_cons]
      refine ⟨?_, hsort⟩
      intro b hb
      rcases List.mem_cons.mp hb with hb | hb
      · exact le_of_eq hb.symm
      · rw [List.sorted_cons] at hsort
        exact hsort.1 b hb
    have hkey := admitted_history_bound N P hP (n :: rest) n [] []
      hsort2 (by simp [pruneW]) u s v hsplitL
    rw [List.nil_append] at hkey
    have hswin : a ≤ s ∧ s < a + P := by simpa using hps
    have himp : ∀ t : Rat, decide (a ≤ t ∧ t < a + P) = true →
        decide (s - t < P) = true := by
      intro t ht
      have ht' : a ≤ t ∧ t < a + P := by simpa using ht
      have : s - t < P := by linarith [hswin.2, ht'.1]
      simpa using this
    have hmono := length_filter_le_filter _ _ himp u
    simp only [pruneW] at hkey
    omega

/-- One run split into two stages: the admitted times of `l1 ++ l2` are the
admitted times of `l1` followed by those of `l2` started from the window the
first stage leaves behind. -/
theorem admittedTimes_append (N : Int) (P : Rat) (l2 : List Rat) :
    ∀ (l1 w : List Rat),
      admittedTimes N P w (l1 ++ l2) =
        admittedTimes N P w l1 ++ admittedTimes N P (runCheck N P w l1).2 l2 := by
  intro l1
  induction l1 with
  | nil => intro w; simp [admittedTimes, runCheck]
  | cons n l1' ih =>
    intro w
    simp only [List.cons_append, admittedTimes, runCheck, List.append_eq]
    rw [ih, List.append_assoc]

/-- Claim C1: with non-decreasing `now` values and a fresh key, (1) at most
`max_calls` of the admitted calls fall in any sliding window `[a, a + P)` of
length `period`, and (2) once `max_calls` calls within such a window have
been admitted, the next call falling in the window is rejected. -/
theorem C1_sliding_window_limit (N : Int) (P : Rat) (nows : List Rat) (a : Rat)
    (hsort : List.Sorted (· ≤ ·) nows) (hN : 0 ≤ N) (hP : 0 < P) :
    (((admittedTimes N P [] nows).filter
      (fun t => decide (a ≤ t ∧ t < a + P))).length : Int) ≤ N ∧
    ∀ pre s post, nows = pre ++ s :: post → 1 ≤ N → a ≤ s → s < a + P →
      (((admittedTimes N P [] pre).filter
        (fun t => decide (a ≤ t ∧ t < a + P))).length : Int) = N →
      ∃ q, (checkKey N P (runCheck N P [] pre).2 s).1 = some (Decision.reject q) := by
  refine ⟨admitted_count_le N P nows a hsort hN hP, ?_⟩
  intro pre s post hpre hN1 has hsP hcount
  by_cases hg : ((pruneW P s (runCheck N P [] pre).2).length : Int) < N
  · exfalso
    have hfull := admitted_count_le N P nows a hsort hN hP
    rw [hpre, admittedTimes_append N P (s :: post) pre []] at hfull
    simp only [admittedTimes] at hfull
    rw [checkKey_of_lt N P _ s hg] at hfull
    rw [if_pos rfl] at hfull
    rw [List.filter_append] at hfull
    rw [List.cons_append, List.nil_append,
      List.filter_cons_of_pos (by simpa using And.intro has hsP)] at hfull
    simp only [List.length_append, List.length_cons] at hfull
    omega
  · have hlen : N ≤ ((pruneW P s (runCheck N P [] pre).2).length : Int) :=
      not_lt.mp hg
    cases hpw : pruneW P s (runCheck N P [] pre).2 with
    | nil => exfalso; rw [hpw] at hlen; simp at hlen; omega
    | cons t0 tl =>
      refine ⟨P - (s - t0), ?_⟩
      rw [checkKey_of_not_lt N P _ s hg, hpw]
      rfl

theorem C1_witness :
    List.Sorted (· ≤ ·) [(0 : Rat), 1, 2] ∧
      (((admittedTimes 2 10 [] [0, 1, 2]).filter
        (fun t => decide ((0 : Rat) ≤ t ∧ t < 0 + 10))).length : Int) ≤ 2 :=
  ⟨by norm_num [List.sorted_cons],
    (C1_sliding_window_limit 2 10 [0, 1, 2] 0
      (by norm_num [List.sorted_cons]) (by norm_num) (by norm_num)).1⟩

/-- Claim C3: in any run of `check` calls on one key with non-decreasing
`now` values, every Reject decision carries a wait time
`wait = period - (now - oldest_timestamp)` with `0 < wait ≤ period`. -/
theorem C3_reject_wait_in_bounds (N : Int) (P : Rat) (nows : List Rat)
    (q : Rat) (hsort : List.Sorted (· ≤ ·) nows)
    (hmem : some (Decision.reject q) ∈ (runCheck N P [] nows).1) :
    0 < q ∧ q ≤ P :=
  reject_wait_bounds_aux N P nows [] hsort (by simp) q hmem

theorem C3_witness :
    List.Sorted (· ≤ ·) [(0 : Rat), 2] ∧ (0 : Rat) < 8 ∧ (8 : Rat) ≤ 10 :=
  ⟨by norm_num [List.sorted_cons],
    C3_reject_wait_in_bounds 1 10 [0, 2] 8 (by norm_num [List.sorted_cons])
      (by norm_num [runCheck, checkKey, pruneW, rejectOutcome])⟩

end RateLimiter
